import Mathlib

/-!
Verification of the AgentFennec local code-and-document intelligence service.

The development shallowly embeds the parts of the source relevant to the
checked properties:

* `index_optimizer.py`   — the incremental inverted-index update over the two
  partitions (`update_index`), the token length filter and analyzer chain,
  and `delete_index`;
* `search_enhancer.py`   — the query-time analyzer (identical chain);
* `docs_lake_initializer.py` — the shard extractor `convert_all_files` and the
  ShardMap it produces;
* `search_localFile_endpoint.py` — the `/search` docs-partition path rewrite
  and the `/file` path validation;
* `directory_search_utils.py` — `build_search_index` / `search_files`;
* `search_agent.py` — `search_file_with_retry`.

Strings are modelled as lists of characters (`Str`); file-system paths as
lists of components.  Fallible external effects (file writes, file reads,
HTTP search calls) are passed in as explicit oracles so each function is a
pure Lean definition mirroring the Python control flow.
-/

/-- Characters of the model are Lean `Char`s; a string is its character list. -/
abbrev Str := List Char

/-- Coerce a Lean string literal into the model representation. -/
def str (s : String) : Str := s.data

/-- First-match association-list lookup (Python `dict` access, insertion order). -/
def alookup {κ α : Type} [DecidableEq κ] (k : κ) : List (κ × α) → Option α
  | [] => none
  | (k2, v) :: rest => if k2 = k then some v else alookup k rest

/-- Boolean list-prefix test (Python `str.startswith` on the model). -/
def isPre {α : Type} [DecidableEq α] : List α → List α → Bool
  | [], _ => true
  | _ :: _, [] => false
  | a :: as, b :: bs => decide (a = b) && isPre as bs

/-- Boolean list-suffix test (Python `str.endswith` on the model). -/
def isSuf {α : Type} [DecidableEq α] (needle hay : List α) : Bool :=
  isPre needle.reverse hay.reverse

/-- Boolean substring test (Python `x in s` on the model). -/
def isSub {α : Type} [DecidableEq α] : List α → List α → Bool
  | n, [] => isPre n []
  | n, h :: t => isPre n (h :: t) || isSub n t

theorem alookup_eq_none {κ α : Type} [DecidableEq κ] {k : κ} {l : List (κ × α)}
    (h : k ∉ l.map Prod.fst) : alookup k l = none := by
  induction l with
  | nil => rfl
  | cons hd tl ih =>
    simp only [List.map_cons, List.mem_cons, not_or] at h
    simp only [alookup]
    rw [if_neg (fun he => h.1 he.symm), ih h.2]

theorem alookup_isSome_mem {κ α : Type} [DecidableEq κ] {k : κ} {l : List (κ × α)} {v : α}
    (h : alookup k l = some v) : (k, v) ∈ l := by
  induction l with
  | nil => simp [alookup] at h
  | cons hd tl ih =>
    obtain ⟨k1, v1⟩ := hd
    simp only [alookup] at h
    by_cases he : k1 = k
    · rw [if_pos he] at h
      cases h
      subst he
      exact List.mem_cons_self _ _
    · rw [if_neg he] at h
      exact List.mem_cons_of_mem _ (ih h)

theorem alookup_of_mem_nodup {κ α : Type} [DecidableEq κ] {k : κ} {l : List (κ × α)} {v : α}
    (hnd : (l.map Prod.fst).Nodup) (h : (k, v) ∈ l) : alookup k l = some v := by
  induction l with
  | nil => cases h
  | cons hd tl ih =>
    simp only [List.map_cons, List.nodup_cons] at hnd
    rcases List.mem_cons.mp h with h1 | h2
    · subst h1
      simp [alookup]
    · have hk : hd.1 ≠ k := by
        intro he
        exact hnd.1 (he ▸ (List.mem_map.mpr ⟨(k, v), h2, rfl⟩))
      simp only [alookup, if_neg hk]
      exact ih hnd.2 h2

theorem isPre_append {α : Type} [DecidableEq α] (a b : List α) : isPre a (a ++ b) = true := by
  induction a with
  | nil => rfl
  | cons h t ih => simp [isPre, ih]

theorem isPre_iff_exists_append {α : Type} [DecidableEq α] {a b : List α} :
    isPre a b = true ↔ ∃ c, a ++ c = b := by
  induction a generalizing b with
  | nil => simp [isPre]
  | cons x xs ih =>
    cases b with
    | nil =>
      simp only [isPre, List.cons_append]
      constructor
      · intro h; cases h
      · rintro ⟨c, hc⟩; cases hc
    | cons y ys =>
      simp only [isPre, Bool.and_eq_true, decide_eq_true_eq, List.cons_append, ih]
      constructor
      · rintro ⟨rfl, c, rfl⟩; exact ⟨c, rfl⟩
      · rintro ⟨c, hc⟩
        injection hc with h1 h2
        exact ⟨h1, c, h2⟩

example : isSub (("me.t").data) (("readme.txt").data) = true := by decide
example : isSub (("zz").data) (("readme.txt").data) = false := by decide
example : alookup (("ab").data) [(("ab").data, 3)] = some 3 := by decide

/-! ## Canonical analyzer (whoosh `StandardAnalyzer() | LengthFilter(2, 39)`)

`index_optimizer.py` and `search_enhancer.py` each define the same
`LengthFilter` class and the same `custom_analyzer` pipeline.  The whoosh
`StandardAnalyzer` is a regex word tokenizer followed by a lowercase filter
and a stop-word filter (default stop list, minimum size 2); it is external
library code and is modelled here from its documented behaviour. -/

namespace Analyzer

/-- Word character of the tokenizer regex (`\w`, with non-ASCII treated as word). -/
def isWordChar (c : Char) : Bool := c.isAlphanum || c = '_' || decide (128 ≤ c.toNat)

/-- Split into maximal word-character runs (`cur` holds the current run reversed). -/
def tokenizeAux : Str → Str → List Str
  | [], cur => if cur.isEmpty then [] else [cur.reverse]
  | c :: rest, cur =>
    if isWordChar c then tokenizeAux rest (c :: cur)
    else if cur.isEmpty then tokenizeAux rest []
    else cur.reverse :: tokenizeAux rest []

/-- The regex tokenizer of `StandardAnalyzer`. -/
def regexTokenize (s : Str) : List Str := tokenizeAux s []

/-- Lowercase filter: lowercases every token. -/
def lowercaseFilter (ts : List Str) : List Str := ts.map (List.map Char.toLower)

/-- The whoosh default stop-word list. -/
def STOP_WORDS : List Str :=
  ["a", "an", "and", "are", "as", "at", "be", "by", "can", "for", "from", "have",
   "if", "in", "is", "it", "may", "not", "of", "on", "or", "tab", "that", "the",
   "this", "to", "us", "we", "when", "will", "with", "yet", "you", "your"].map str

/-- Stop filter: drops stop words and tokens shorter than `minsize`. -/
def stopFilter (stoplist : List Str) (minsize : Nat) (ts : List Str) : List Str :=
  ts.filter fun t => decide (t ∉ stoplist) && decide (minsize ≤ t.length)

/-- Model of `StandardAnalyzer()`: tokenize, lowercase, stop-filter. -/
def standardAnalyzer (s : Str) : List Str :=
  stopFilter STOP_WORDS 2 (lowercaseFilter (regexTokenize s))

end Analyzer

namespace IndexOptimizer

/-- Model of `LengthFilter.__call__` (`index_optimizer.py`): keep tokens with
`min <= len(token.text) <= max`. -/
def LengthFilter (mn mx : Nat) (ts : List Str) : List Str :=
  ts.filter fun t => decide (mn ≤ t.length) && decide (t.length ≤ mx)

/-- Model of `custom_analyzer = StandardAnalyzer() | LengthFilter(min=2, max=39)`
(`index_optimizer.py`). -/
def custom_analyzer (s : Str) : List Str :=
  LengthFilter 2 39 (Analyzer.standardAnalyzer s)

end IndexOptimizer

namespace SearchEnhancer

/-- Model of `LengthFilter.__call__` (`search_enhancer.py`, duplicated definition). -/
def LengthFilter (mn mx : Nat) (ts : List Str) : List Str :=
  ts.filter fun t => decide (mn ≤ t.length) && decide (t.length ≤ mx)

/-- Model of `custom_analyzer = StandardAnalyzer() | LengthFilter(min=2, max=39)`
(`search_enhancer.py`, duplicated definition). -/
def custom_analyzer (s : Str) : List Str :=
  LengthFilter 2 39 (Analyzer.standardAnalyzer s)

end SearchEnhancer

/-! ## Incremental index update (`index_optimizer.update_index`)

One partition of the two-partition update.  The walk is modelled as the list
of eligible files the `os.walk` loop classifies into this partition, in walk
order; each carries its path key (`os.path.relpath` result), its change
signature, and the outcome of the two per-file effects the upsert loop
performs (the NUL-byte binary sniff and the UTF-8 read). -/

namespace IndexOptimizer

/-- Change signature `{mtime, size}` of `get_file_metadata`. -/
structure FileSig where
  last_modified : Nat
  size : Nat
deriving DecidableEq

/-- One eligible file seen by the walk, with the oracles for the per-file
effects: `binary` is the result of `is_binary_file`, `readable` is whether the
UTF-8 read succeeds. -/
structure FsFile where
  path : Str
  sig : FileSig
  binary : Bool
  readable : Bool
deriving DecidableEq

/-- The persisted sidecar `file_metadata.pkl`: `path -> {mtime, size}`. -/
abbrev Meta := List (Str × FileSig)

/-- Outcome of one partition update: the committed index key set, the
persisted sidecar, and the number of writer upserts and deletions. -/
structure UpdateResult where
  index : List Str
  persistedMeta : Meta
  upserts : Nat
  deletes : Nat
deriving DecidableEq

/-- A file is dirty when forced, absent from the previous metadata, or its
`(mtime, size)` signature differs (the `or`-chain in `update_index`). -/
def dirtyCheck (force : Bool) (prev : Meta) (f : FsFile) : Bool :=
  force || decide (alookup f.path prev ≠ some f.sig)

/-- Model of `writer.update_document` keyed on the unique `path` field: replace the
document with that key (for the key set: insert). -/
def upsert (ix : List Str) (p : Str) : List Str :=
  if p ∈ ix then ix else ix ++ [p]

/-- The current metadata table built during the walk (`docs_current_metadata`
/ `other_current_metadata`): every eligible file is recorded, dirty or not. -/
def currentOf (fs : List FsFile) : Meta := fs.map fun f => (f.path, f.sig)

/-- The dirty files collected during the walk (`files_to_update`). -/
def dirtyOf (force : Bool) (prevMeta : Meta) (fs : List FsFile) : List FsFile :=
  fs.filter (dirtyCheck force prevMeta)

/-- The paths deleted by `delete_by_term`: previous-metadata paths absent from
the current walk; no deletion pass happens on a forced rebuild (the index was
recreated empty). -/
def staleOf (force : Bool) (prevMeta : Meta) (fs : List FsFile) : List Str :=
  if force then []
  else (prevMeta.map Prod.fst).filter fun p => (alookup p (currentOf fs)).isNone

/-- The dirty files that reach `update_document`: the binary sniff and the
UTF-8 read both skip a file without touching the writer. -/
def processedOf (force : Bool) (prevMeta : Meta) (fs : List FsFile) : List FsFile :=
  (dirtyOf force prevMeta fs).filter fun f => !f.binary && f.readable

/-- The index the writer starts from: `create_in` empties it on a forced
rebuild, otherwise `open_dir` keeps the previous documents. -/
def baseIndex (force : Bool) (prevIndex : List Str) : List Str :=
  if force then [] else prevIndex

/-- The committed key set: stale paths deleted, then every processed dirty
file upserted. -/
def finalIndex (force : Bool) (prevMeta : Meta) (prevIndex : List Str)
    (fs : List FsFile) : List Str :=
  (processedOf force prevMeta fs).foldl (fun ix f => upsert ix f.path)
    ((baseIndex force prevIndex).filter fun p => decide (p ∉ staleOf force prevMeta fs))

/-- One partition of `update_index`: build the current metadata from the walk,
collect dirty files, and unless nothing is dirty and no rebuild is forced,
delete stale paths, upsert every dirty non-binary readable file, commit, and
persist the current metadata.  When nothing is dirty the writer is never
opened and the sidecar is left as it was. -/
def update_partition (force : Bool) (prevMeta : Meta) (prevIndex : List Str)
    (fs : List FsFile) : UpdateResult :=
  if (dirtyOf force prevMeta fs).isEmpty && !force then
    ⟨prevIndex, prevMeta, 0, 0⟩
  else
    ⟨finalIndex force prevMeta prevIndex fs, currentOf fs,
     (processedOf force prevMeta fs).length, (staleOf force prevMeta fs).length⟩

/-- Model of `delete_index` result status. -/
inductive DeleteStatus | success | error
deriving DecidableEq

/-- The file-system effect `delete_index` performs. -/
inductive FsAction | noop | rmtree (dir : Str)
deriving DecidableEq

/-- Model of `delete_index`: refuse paths containing `*`, not containing `__`, or not
ending in `__`; otherwise remove the directory if it exists, else report a
skipped success. -/
def delete_index (pathExists : Str → Bool) (index_dir : Str) :
    DeleteStatus × FsAction :=
  if decide ('*' ∈ index_dir) || !isSub (("__").data) index_dir
      || !isSuf (("__").data) index_dir then
    (.error, .noop)
  else if pathExists index_dir then
    (.success, .rmtree index_dir)
  else
    (.success, .noop)

end IndexOptimizer

example : IndexOptimizer.custom_analyzer (("a ab abcde").data) = [("ab").data, ("abcde").data] := by decide
example : (IndexOptimizer.update_partition false [] [] []).upserts = 0 := by decide
example :
    IndexOptimizer.delete_index (fun _ => true) (("index__dir").data) =
      (.error, .noop) := by decide
example :
    IndexOptimizer.delete_index (fun _ => true) (("__docs__").data) =
      (.success, .rmtree (("__docs__").data)) := by decide

/-! ## Shard extractor (`docs_lake_initializer.convert_all_files`)

Office origins are modelled with the outcome of their conversion already
decided: an Excel origin carries its sheet list, any other office origin its
page list (word-processor / PDF / presentation, whose mapping entries are
identical), and `nothing` stands for a non-office file or a conversion that
raised and returned an empty (falsy) dict or list.  Every sheet or page
carries the outcome of its `write_text` call; a failed write raises before
any mapping entry is recorded and the loop continues without incrementing
`file_id`.  The on-disk shard name `<id>.txt` and the JSON key `str(id)` are
both in bijection with the integer id, so the model keys both ShardMap tables
by the id itself. -/

namespace DocsLake

/-- Shard label: `sheet` for Excel, `page` for word-processor / PDF / slides. -/
inductive SLabel
  | sheet (name : Str)
  | page (idx : Nat)
deriving DecidableEq

/-- One `id_to_file` entry: resolved origin path plus label. -/
structure ShardEntry where
  original_file : Str
  label : SLabel
deriving DecidableEq

/-- Conversion outcome of one origin (`convert_file`). -/
inductive Converted
  | excel (sheets : List (Str × Bool))
  | pages (writes : List Bool)
  | nothing
deriving DecidableEq

/-- One origin file found by the walk, outside the output directory. -/
structure OriginFile where
  path : Str
  conv : Converted
deriving DecidableEq

/-- The two ShardMap tables, in insertion order. -/
structure ShardMap where
  id_to_file : List (Nat × ShardEntry)
  relative_path_to_id : List (Nat × Nat)
deriving DecidableEq

/-- Record one successfully written shard in both tables. -/
def addShard (m : ShardMap) (i : Nat) (origin : Str) (lab : SLabel) : ShardMap :=
  ⟨m.id_to_file ++ [(i, ⟨origin, lab⟩)], m.relative_path_to_id ++ [(i, i)]⟩

/-- The Excel branch: one shard per sheet; `file_id` advances only on a
successful write. -/
def processSheets (origin : Str) : List (Str × Bool) → Nat → ShardMap → Nat × ShardMap
  | [], i, m => (i, m)
  | (name, ok) :: rest, i, m =>
    if ok then processSheets origin rest (i + 1) (addShard m i origin (.sheet name))
    else processSheets origin rest i m

/-- The page branch: `page_index` advances per page regardless of the write,
`file_id` only on success. -/
def processPages (origin : Str) : List Bool → Nat → Nat → ShardMap → Nat × ShardMap
  | [], _, i, m => (i, m)
  | ok :: rest, pidx, i, m =>
    if ok then processPages origin rest (pidx + 1) (i + 1) (addShard m i origin (.page pidx))
    else processPages origin rest (pidx + 1) i m

/-- Process one origin file of the walk. -/
def processOrigin (f : OriginFile) (i : Nat) (m : ShardMap) : Nat × ShardMap :=
  match f.conv with
  | .nothing => (i, m)
  | .excel sheets => processSheets f.path sheets i m
  | .pages ws => processPages f.path ws 1 i m

/-- Model of `convert_all_files`: walk the origins in order starting from `file_id = 1`
and return the final mapping. -/
def convert_all_files (files : List OriginFile) : ShardMap :=
  (files.foldl (fun st f => processOrigin f st.1 st.2) ((1, ⟨[], []⟩) : Nat × ShardMap)).2

end DocsLake

example :
    (DocsLake.convert_all_files
        [⟨("a.xlsx").data, .excel [(("A").data, true), (("B").data, true)]⟩]).id_to_file =
      [(1, ⟨("a.xlsx").data, .sheet (("A").data)⟩), (2, ⟨("a.xlsx").data, .sheet (("B").data)⟩)] := by
  decide

example :
    (DocsLake.convert_all_files [⟨("d.pdf").data, .pages [true, false, true]⟩]).id_to_file =
      [(1, ⟨("d.pdf").data, .page 1⟩), (2, ⟨("d.pdf").data, .page 3⟩)] := by
  decide

/-! ## HTTP endpoint path handling (`search_localFile_endpoint.py`)

`pathlib` paths are modelled as an absolute flag plus a component list.
`Path./` replaces the left side when the right side is absolute;
`Path.relative_to` strips an exact component prefix and raises (here: `none`)
otherwise; `Path.resolve` folds `..` and `.` away.  The app directory is the
configured source root in resolved form, and the docs-lake directory is the
configured shard folder name under it. -/

namespace Endpoint

/-- A `pathlib.Path`: absolute flag and components. -/
structure PPath where
  isAbs : Bool
  comps : List Str
deriving DecidableEq

/-- Model of `Path.__truediv__`: an absolute right side replaces the left side. -/
def pjoin (p q : PPath) : PPath :=
  if q.isAbs then q else ⟨p.isAbs, p.comps ++ q.comps⟩

/-- Model of `Path.relative_to`: strip an exact prefix, `none` on `ValueError`. -/
def relative_to (p base : PPath) : Option PPath :=
  if p.isAbs = base.isAbs && isPre base.comps p.comps then
    some ⟨false, p.comps.drop base.comps.length⟩
  else none

/-- Characters of a name before its last dot; helper for `pstem`. -/
def dropLastSuffix (t : Str) : Str :=
  ((t.reverse.dropWhile fun c => decide (c ≠ '.')).drop 1).reverse

/-- Model of `Path.stem` of a single name: strip the final suffix; a lone leading dot
is not a suffix separator. -/
def stemOf (name : Str) : Str :=
  match name with
  | [] => []
  | h :: t => if '.' ∈ t then h :: dropLastSuffix t else name

/-- Model of `Path.stem`: stem of the last component. -/
def pstem (p : PPath) : Str := stemOf (p.comps.getLast?.getD [])

/-- One `mapping.json` `id_to_file` entry as the `/search` route reads it. -/
structure MapEntry where
  original_file : PPath
  label : DocsLake.SLabel
deriving DecidableEq

/-- The docs-partition result rewrite of the `/search` route: anchor the
stored shard path under the docs-lake directory, look its stem up in
`id_to_file`, and rewrite to the origin relative to the app directory; a
missing entry falls back to relativizing the shard path itself. -/
def rewrite_docs_result (appDir docsLake : PPath) (mapping : List (Str × MapEntry))
    (rawPath : PPath) : PPath × Option DocsLake.SLabel :=
  let fp := if rawPath.isAbs then rawPath else pjoin docsLake rawPath
  match relative_to fp docsLake with
  | none => (rawPath, none)
  | some _ =>
    match alookup (pstem fp) mapping with
    | some entry =>
      ((match relative_to entry.original_file appDir with
        | some rel => rel
        | none => entry.original_file), some entry.label)
    | none =>
      ((match relative_to fp appDir with
        | some rel => rel
        | none => fp), none)

/-- Model of `Path.resolve` applied to `appDir / param`: fold the request components
over the resolved app directory, popping on `..` and skipping `.`. -/
def resolveComps (acc : List Str) : List Str → List Str
  | [] => acc
  | c :: rest =>
    if c = ("..").data then resolveComps acc.dropLast rest
    else if c = (".").data then resolveComps acc rest
    else resolveComps (acc ++ [c]) rest

/-- Response shape of the `/file` route. -/
inductive FileResponse
  | ok (path : List Str)
  | badRequest
  | denied
  | notFound
deriving DecidableEq

/-- Model of `get_file_contents` up to content assembly: validate the parameter, the
source-root containment, the docs-lake exclusion, and existence, in the order
of the route. -/
def get_file_contents (appD : List Str) (docsName : Str) (pathExists : List Str → Bool)
    (param : Option (List Str)) : FileResponse :=
  match param with
  | none => .badRequest
  | some comps =>
    let full := resolveComps appD comps
    if isPre appD full then
      if isPre (appD ++ [docsName]) full then .denied
      else if pathExists full then .ok full
      else .notFound
    else .denied

end Endpoint

example :
    Endpoint.get_file_contents [("root").data] (("dd").data) (fun _ => true)
      (some [("..").data, ("secret").data]) = .denied := by decide
example :
    Endpoint.get_file_contents [("root").data] (("dd").data) (fun _ => true)
      (some [("dd").data, ("1.txt").data]) = .denied := by decide
example :
    Endpoint.get_file_contents [("root").data] (("dd").data) (fun _ => false)
      (some [("src").data, ("m.py").data]) = .notFound := by decide
example :
    Endpoint.pstem ⟨true, [("root").data, ("dd").data, ("12.txt").data]⟩ = ("12").data := by decide

/-! ## Filename index and filename search (`directory_search_utils.py`)

`build_search_index` walks the tree; the walk is modelled as the list of
`(relative_path, file_name)` pairs it visits, in order.  `search_files` is
modelled in AND mode up to result formatting: the returned value is the list
of displayed paths (`sorted(set(matches))[:max_results]`); the OR-labelled
suggestion block emitted when that list is empty is separate output and not
part of the search result. -/

namespace DirSearch

/-- Append a path under a key of the exact index (`dict`-of-list insert). -/
def aappend (k : Str) (p : Str) : List (Str × List Str) → List (Str × List Str)
  | [] => [(k, [p])]
  | (k2, v) :: rest =>
    if k2 = k then (k2, v ++ [p]) :: rest else (k2, v) :: aappend k p rest

/-- Model of `os.path.splitext` on a single name: split at the last dot, where leading
dots never start a suffix. -/
def splitext (name : Str) : Str × Str :=
  let dots := name.takeWhile fun c => decide (c = '.')
  let rest := name.drop dots.length
  let revSuf := rest.reverse.takeWhile fun c => decide (c ≠ '.')
  if revSuf.length = rest.length then (name, [])
  else (dots ++ rest.take (rest.length - revSuf.length - 1), '.' :: revSuf.reverse)

/-- The two structures `build_search_index` returns. -/
structure SIndex where
  exact : List (Str × List Str)
  files : List (Str × Str)
deriving DecidableEq

/-- Model of `build_search_index`: each file contributes its lowercase basename, its
stem and (when present) its dotted extension as exact keys, and one
`(relative_path, lowercase_basename)` pair to the substring list. -/
def build_search_index (walk : List (Str × Str)) : SIndex :=
  walk.foldl
    (fun idx pr =>
      let fl := pr.2.map Char.toLower
      let ne := splitext fl
      let e1 := aappend fl pr.1 idx.exact
      let e2 := aappend ne.1 pr.1 e1
      let e3 := if ne.2.isEmpty then e2 else aappend ne.2 pr.1 e2
      ⟨e3, idx.files ++ [(pr.1, fl)]⟩)
    ⟨[], []⟩

/-- Folder-prefix and extension restriction applied to an exact-hit list. -/
def filterPaths (frp ext : Str) (paths : List Str) : List Str :=
  let p1 := paths.filter fun p => frp.isEmpty || isPre frp p
  if ext.isEmpty then p1
  else p1.filter fun p => isSuf (ext.map Char.toLower) (p.map Char.toLower)

/-- The exact-match AND loop of `search_files`: keywords missing from the
exact index are skipped; the loop breaks as soon as the intersection becomes
empty. -/
def exactLoop (idx : SIndex) (frp ext : Str) : List Str → List Str → List Str
  | [], acc => acc
  | k :: ks, acc =>
    match alookup k idx.exact with
    | none => exactLoop idx frp ext ks acc
    | some paths =>
      let filtered := filterPaths frp ext paths
      let acc2 := if acc.isEmpty then filtered else acc.filter fun p => decide (p ∈ filtered)
      if acc2.isEmpty then acc2 else exactLoop idx frp ext ks acc2

/-- Lexicographic comparison on character codes (Python string `<=`). -/
def strLe : Str → Str → Bool
  | [], _ => true
  | _ :: _, [] => false
  | a :: as, b :: bs =>
    decide (a.toNat < b.toNat) || (decide (a = b) && strLe as bs)

/-- Insertion into a sorted list; helper for `sortStrs`. -/
def insSorted (x : Str) : List Str → List Str
  | [] => [x]
  | y :: ys => if strLe x y then x :: y :: ys else y :: insSorted x ys

/-- Model of `sorted` on the model. -/
def sortStrs (l : List Str) : List Str := l.foldr insSorted []

/-- Model of `sorted(set(l))`. -/
def dedupSort (l : List Str) : List Str := sortStrs l.dedup

/-- Model of `search_files` in AND mode, returning the displayed path list: the exact
AND phase, the substring augmentation while fewer than `maxResults` matches
exist, then `sorted(set(matches))[:max_results]`. -/
def search_files_and (idx : SIndex) (kws : List Str) (frp ext : Str)
    (maxResults : Nat) : List Str :=
  let em := exactLoop idx frp ext kws []
  let allMatches :=
    if em.length < maxResults then
      let subMatches :=
        (idx.files.filter fun pr =>
            (frp.isEmpty || isPre frp pr.1) &&
            (ext.isEmpty || isSuf (ext.map Char.toLower) (pr.1.map Char.toLower)) &&
            kws.all (fun k => isSub k pr.2) &&
            decide (pr.1 ∉ em)).map Prod.fst
      em ++ subMatches.take (maxResults - em.length)
    else em
  if allMatches.isEmpty then [] else (dedupSort allMatches).take maxResults

end DirSearch

example :
    DirSearch.search_files_and
      (DirSearch.build_search_index [(("readme.txt").data, ("readme.txt").data)])
      [("readme").data, ("me.t").data] [] [] 10 = [("readme.txt").data] := by decide
example : DirSearch.splitext (("a.b.c").data) = (("a.b").data, (".c").data) := by decide
example : DirSearch.splitext (("..txt").data) = (("..txt").data, ("").data) := by decide

/-! ## Fused retrieval with retry (`search_agent.search_file_with_retry`)

The ranked content search `search_file` and the suggestion call `suggest_api`
are HTTP round trips; they are passed in as oracles.  `searchF q = some r`
stands for a reply whose text lacks the no-results marker (which the loop
returns at once) and `none` for the no-results reply.  `suggest q` is the
string `suggest_api` hands back; the loop retries with it only when it is
non-empty and differs from the current query. -/

namespace SearchAgent

/-- How the retry loop ended: a hit at some query, or falling through with
the query the fallback filename search will receive. -/
inductive RetryOutcome
  | found (q r : Str)
  | fellBack (q : Str)
deriving DecidableEq

/-- The `for attempt in range(max_attempts)` loop: returns the content-search
attempt queries in order and the outcome. -/
def retryAux (searchF : Str → Option Str) (suggest : Str → Str) :
    Nat → Str → List Str × RetryOutcome
  | 0, q => ([], .fellBack q)
  | n + 1, q =>
    match searchF q with
    | some r => ([q], .found q r)
    | none =>
      let nq := suggest q
      if nq ≠ [] ∧ nq ≠ q then
        let rest := retryAux searchF suggest n nq
        (q :: rest.1, rest.2)
      else ([q], .fellBack q)

/-- Model of `search_file_with_retry` with the default `max_attempts = 3`: run the
loop, and when every attempt was empty run the filename-search fallback over
the whole tree (`search_files_recorded(query, "./")`) on the final query. -/
def search_file_with_retry (searchF : Str → Option Str) (suggest : Str → Str)
    (fallback : Str → Str) (q : Str) : Str :=
  match retryAux searchF suggest 3 q with
  | (_, .found _ r) => r
  | (_, .fellBack fq) => fallback fq

end SearchAgent

example :
    SearchAgent.retryAux (fun _ => none) (fun q => q ++ [Char.ofNat 120]) 3 (("ab").data) =
      ([("ab").data, ("abx").data, ("abxx").data], .fellBack (("abxxx").data)) := by decide
example :
    SearchAgent.retryAux (fun _ => none) (fun _ => []) 3 (("ab").data) =
      ([("ab").data], .fellBack (("ab").data)) := by decide

/-! ## Claims -/

/-- C3: every token produced by the canonical analyzer chain — the chain used
both for indexing (`index_optimizer.custom_analyzer`) and for query-time term
extraction (`search_enhancer.custom_analyzer`, definitionally the same
pipeline) — has length at least 2 and at most 39, so no shorter or longer
surface form is ever a matchable term. -/
theorem C3_token_length_bound :
    (∀ s : Str, ∀ t ∈ IndexOptimizer.custom_analyzer s, 2 ≤ t.length ∧ t.length ≤ 39) ∧
    IndexOptimizer.custom_analyzer = SearchEnhancer.custom_analyzer := by
  constructor
  · intro s t ht
    have hpred := List.of_mem_filter ht
    simp only [Bool.and_eq_true, decide_eq_true_eq] at hpred
    exact hpred
  · rfl

/-- C3 witness: the token `ab` of the text `a ab abcde` satisfies the bound. -/
theorem C3_token_length_bound_witness :
    2 ≤ (("ab").data).length ∧ (("ab").data).length ≤ 39 :=
  C3_token_length_bound.1 (("a ab abcde").data) (("ab").data) (by decide)

/-- C10: `delete_index` removes a directory only when the path contains no
`*`, contains `__`, ends with `__` and exists; any path failing one of the
three string conditions yields an error status with no deletion, and a
qualifying but missing path yields a success status with no deletion. -/
theorem C10_delete_index_guard (pathExists : Str → Bool) (index_dir : Str) :
    (('*' ∈ index_dir ∨ isSub (("__").data) index_dir = false ∨
        isSuf (("__").data) index_dir = false) →
      IndexOptimizer.delete_index pathExists index_dir = (.error, .noop)) ∧
    (('*' ∉ index_dir ∧ isSub (("__").data) index_dir = true ∧
        isSuf (("__").data) index_dir = true ∧ pathExists index_dir = false) →
      IndexOptimizer.delete_index pathExists index_dir = (.success, .noop)) ∧
    (∀ d, (IndexOptimizer.delete_index pathExists index_dir).2 = .rmtree d →
      d = index_dir ∧ '*' ∉ index_dir ∧ isSub (("__").data) index_dir = true ∧
      isSuf (("__").data) index_dir = true ∧ pathExists index_dir = true) := by
  refine ⟨?_, ?_, ?_⟩
  · intro h
    have hb : (decide ('*' ∈ index_dir) || !isSub (("__").data) index_dir
        || !isSuf (("__").data) index_dir) = true := by
      rcases h with h | h | h <;> simp [h]
    simp [IndexOptimizer.delete_index, hb]
  · rintro ⟨h1, h2, h3, h4⟩
    have hb : (decide ('*' ∈ index_dir) || !isSub (("__").data) index_dir
        || !isSuf (("__").data) index_dir) = false := by
      simp [h1, h2, h3]
    simp [IndexOptimizer.delete_index, hb, h4]
  · intro d hd
    cases hb : (decide ('*' ∈ index_dir) || !isSub (("__").data) index_dir
        || !isSuf (("__").data) index_dir) with
    | true => simp [IndexOptimizer.delete_index, hb] at hd
    | false =>
      cases hp : pathExists index_dir with
      | false => simp [IndexOptimizer.delete_index, hb, hp] at hd
      | true =>
        simp only [Bool.or_eq_false_iff, decide_eq_false_iff_not,
          Bool.not_eq_false, Bool.not_eq_false'] at hb
        obtain ⟨⟨hb1, hb2⟩, hb3⟩ := hb
        have hb2t : isSub (("__").data) index_dir = true := by
          revert hb2; cases isSub (("__").data) index_dir <;> simp
        have hb3t : isSuf (("__").data) index_dir = true := by
          revert hb3; cases isSuf (("__").data) index_dir <;> simp
        have hbf : (decide ('*' ∈ index_dir) || !isSub (("__").data) index_dir
            || !isSuf (("__").data) index_dir) = false := by
          simp [hb1, hb2t, hb3t]
        simp [IndexOptimizer.delete_index, hbf, hp] at hd
        exact ⟨hd.symm, hb1, hb2t, hb3t, rfl⟩

/-- C10 witness: a qualifying but nonexistent directory is reported as a
skipped success with no file-system action. -/
theorem C10_delete_index_guard_witness :
    IndexOptimizer.delete_index (fun _ => false) (("idx__").data) = (.success, .noop) :=
  (C10_delete_index_guard (fun _ => false) (("idx__").data)).2.1
    ⟨by decide, by decide, by decide, rfl⟩

theorem isPre_of_isPre_append {α : Type} [DecidableEq α] {a b l : List α}
    (h : isPre (a ++ b) l = true) : isPre a l = true := by
  rw [isPre_iff_exists_append] at h ⊢
  obtain ⟨c, hc⟩ := h
  exact ⟨b ++ c, by rw [← List.append_assoc, hc]⟩

/-- C8: for the `/file` route, a request whose resolved target escapes the
source root, or lands inside the docs-lake (shard) directory, is answered
with the 403-shaped error and no content; a request resolving inside the
source root, outside the shard directory, to a nonexistent file is answered
with the 404-shaped error. -/
theorem C8_file_request_validation (appD : List Str) (docsName : Str)
    (pathExists : List Str → Bool) (comps : List Str) :
    (isPre appD (Endpoint.resolveComps appD comps) = false →
      Endpoint.get_file_contents appD docsName pathExists (some comps) = .denied) ∧
    (isPre (appD ++ [docsName]) (Endpoint.resolveComps appD comps) = true →
      Endpoint.get_file_contents appD docsName pathExists (some comps) = .denied) ∧
    (isPre appD (Endpoint.resolveComps appD comps) = true →
      isPre (appD ++ [docsName]) (Endpoint.resolveComps appD comps) = false →
      pathExists (Endpoint.resolveComps appD comps) = false →
      Endpoint.get_file_contents appD docsName pathExists (some comps) = .notFound) := by
  refine ⟨?_, ?_, ?_⟩
  · intro h
    simp [Endpoint.get_file_contents, h]
  · intro h
    have hroot : isPre appD (Endpoint.resolveComps appD comps) = true :=
      isPre_of_isPre_append h
    simp [Endpoint.get_file_contents, hroot, h]
  · intro h1 h2 h3
    simp [Endpoint.get_file_contents, h1, h2, h3]

/-- C8 witness: with source root `root` and shard folder `dd`, an escaping
request, a shard-internal request, and a missing in-root request get the
403-, 403- and 404-shaped replies respectively. -/
theorem C8_file_request_validation_witness :
    Endpoint.get_file_contents [("root").data] (("dd").data) (fun _ => true)
        (some [("..").data, ("etc").data]) = .denied ∧
    Endpoint.get_file_contents [("root").data] (("dd").data) (fun _ => true)
        (some [("dd").data, ("1.txt").data]) = .denied ∧
    Endpoint.get_file_contents [("root").data] (("dd").data) (fun _ => false)
        (some [("src").data, ("m.py").data]) = .notFound :=
  ⟨(C8_file_request_validation [("root").data] (("dd").data) (fun _ => true)
      [("..").data, ("etc").data]).1 (by decide),
   (C8_file_request_validation [("root").data] (("dd").data) (fun _ => true)
      [("dd").data, ("1.txt").data]).2.1 (by decide),
   (C8_file_request_validation [("root").data] (("dd").data) (fun _ => false)
      [("src").data, ("m.py").data]).2.2 (by decide) (by decide) rfl⟩

namespace SearchAgent

theorem retryAux_len (searchF : Str → Option Str) (suggest : Str → Str) :
    ∀ n q, (retryAux searchF suggest n q).1.length ≤ n := by
  intro n
  induction n with
  | zero => intro q; simp [retryAux]
  | succ n ih =>
    intro q
    simp only [retryAux]
    cases searchF q with
    | some r => simp
    | none =>
      by_cases hc : suggest q ≠ [] ∧ suggest q ≠ q
      · rw [if_pos hc]
        simpa using Nat.succ_le_succ (ih (suggest q))
      · rw [if_neg hc]
        simp

theorem retryAux_head (searchF : Str → Option Str) (suggest : Str → Str) (n : Nat) (q : Str) :
    (retryAux searchF suggest (n + 1) q).1.head? = some q := by
  simp only [retryAux]
  cases searchF q with
  | some r => rfl
  | none =>
    by_cases hc : suggest q ≠ [] ∧ suggest q ≠ q
    · rw [if_pos hc]; rfl
    · rw [if_neg hc]; rfl

theorem retryAux_chain (searchF : Str → Option Str) (suggest : Str → Str) :
    ∀ n q, List.Chain' (fun a b => suggest a ≠ [] ∧ suggest a ≠ a ∧ b = suggest a)
      (retryAux searchF suggest n q).1 := by
  intro n
  induction n with
  | zero => intro q; simp [retryAux]
  | succ n ih =>
    intro q
    simp only [retryAux]
    cases searchF q with
    | some r => simp
    | none =>
      by_cases hc : suggest q ≠ [] ∧ suggest q ≠ q
      · rw [if_pos hc]
        refine List.chain'_cons'.mpr ⟨?_, ih (suggest q)⟩
        intro b hb
        cases n with
        | zero => simp [retryAux] at hb
        | succ m =>
          rw [retryAux_head] at hb
          cases hb
          exact ⟨hc.1, hc.2, rfl⟩
      · rw [if_neg hc]
        simp

theorem retryAux_fellBack_none (searchF : Str → Option Str) (suggest : Str → Str) :
    ∀ n q fq, (retryAux searchF suggest n q).2 = .fellBack fq →
      ∀ a ∈ (retryAux searchF suggest n q).1, searchF a = none := by
  intro n
  induction n with
  | zero => intro q fq _ a ha; simp [retryAux] at ha
  | succ n ih =>
    intro q fq hout a ha
    simp only [retryAux] at hout ha
    cases hf : searchF q with
    | some r => rw [hf] at hout; cases hout
    | none =>
      rw [hf] at hout ha
      by_cases hc : suggest q ≠ [] ∧ suggest q ≠ q
      · rw [if_pos hc] at hout ha
        rcases List.mem_cons.mp ha with rfl | ha2
        · exact hf
        · exact ih (suggest q) fq hout a ha2
      · rw [if_neg hc] at hout ha
        rcases List.mem_cons.mp ha with rfl | ha2
        · exact hf
        · cases ha2

theorem retryAux_early_stop (searchF : Str → Option Str) (suggest : Str → Str) :
    ∀ n q fq, (retryAux searchF suggest n q).2 = .fellBack fq →
      (retryAux searchF suggest n q).1.length < n →
      fq ∈ (retryAux searchF suggest n q).1 ∧ (suggest fq = [] ∨ suggest fq = fq) := by
  intro n
  induction n with
  | zero => intro q fq _ hlen; cases (Nat.not_lt_zero _) hlen
  | succ n ih =>
    intro q fq hout hlen
    simp only [retryAux] at hout hlen ⊢
    cases hf : searchF q with
    | some r => rw [hf] at hout; cases hout
    | none =>
      rw [hf] at hout hlen
      dsimp only at hout hlen ⊢
      by_cases hc : suggest q ≠ [] ∧ suggest q ≠ q
      · rw [if_pos hc] at hout hlen ⊢
        dsimp only at hout hlen ⊢
        have hlen2 : (retryAux searchF suggest n (suggest q)).1.length < n := by
          simp only [List.length_cons] at hlen
          omega
        obtain ⟨hmem, hstop⟩ := ih (suggest q) fq hout hlen2
        exact ⟨List.mem_cons_of_mem _ hmem, hstop⟩
      · rw [if_neg hc] at hout ⊢
        dsimp only at hout ⊢
        cases hout
        refine ⟨List.mem_cons_self _ _, ?_⟩
        by_cases he : suggest q = []
        · exact Or.inl he
        · right
          by_contra hne
          exact hc ⟨he, hne⟩

theorem retryAux_fellBack_result (searchF : Str → Option Str) (suggest : Str → Str)
    (fallback : Str → Str) (q fq : Str)
    (h : (retryAux searchF suggest 3 q).2 = .fellBack fq) :
    search_file_with_retry searchF suggest fallback q = fallback fq := by
  unfold search_file_with_retry
  rw [show retryAux searchF suggest 3 q =
      ((retryAux searchF suggest 3 q).1, (retryAux searchF suggest 3 q).2) from rfl, h]

end SearchAgent

/-- C9: the fused-retrieval call makes at most three ranked content-search
attempts; consecutive attempt queries are related by the suggestion call and
every rewrite that leads to a further attempt is non-empty and differs from
the current query; the loop stops early only when the suggestion produced
nothing new for a failed attempt; and when every attempt came back empty the
call returns the filename-search fallback on the final query. -/
theorem C9_retry_and_fallback (searchF : Str → Option Str) (suggest : Str → Str)
    (fallback : Str → Str) (q : Str) :
    (SearchAgent.retryAux searchF suggest 3 q).1.length ≤ 3 ∧
    List.Chain' (fun a b => suggest a ≠ [] ∧ suggest a ≠ a ∧ b = suggest a)
      (SearchAgent.retryAux searchF suggest 3 q).1 ∧
    (∀ fq, (SearchAgent.retryAux searchF suggest 3 q).2 = .fellBack fq →
      (∀ a ∈ (SearchAgent.retryAux searchF suggest 3 q).1, searchF a = none) ∧
      SearchAgent.search_file_with_retry searchF suggest fallback q = fallback fq) ∧
    (∀ fq, (SearchAgent.retryAux searchF suggest 3 q).2 = .fellBack fq →
      (SearchAgent.retryAux searchF suggest 3 q).1.length < 3 →
      fq ∈ (SearchAgent.retryAux searchF suggest 3 q).1 ∧
      (suggest fq = [] ∨ suggest fq = fq)) :=
  ⟨SearchAgent.retryAux_len searchF suggest 3 q,
   SearchAgent.retryAux_chain searchF suggest 3 q,
   fun fq h =>
     ⟨SearchAgent.retryAux_fellBack_none searchF suggest 3 q fq h,
      SearchAgent.retryAux_fellBack_result searchF suggest fallback q fq h⟩,
   fun fq h hlen => SearchAgent.retryAux_early_stop searchF suggest 3 q fq h hlen⟩

/-- C9 witness: with a content search that always comes back empty and a
suggestion call that returns nothing new, the single attempt stops the loop
early and the result is the filename-search fallback on the original query. -/
theorem C9_retry_and_fallback_witness :
    (∀ a ∈ (SearchAgent.retryAux (fun _ => none) (fun _ => []) 3 (("cfg").data)).1,
      (fun _ => (none : Option Str)) a = none) ∧
    SearchAgent.search_file_with_retry (fun _ => none) (fun _ => [])
      (fun fq => fq ++ ("!").data) (("cfg").data) = ("cfg").data ++ ("!").data :=
  (C9_retry_and_fallback (fun _ => none) (fun _ => []) (fun fq => fq ++ ("!").data)
      (("cfg").data)).2.2.1 (("cfg").data) (by decide)

/-- C2 (amended): a docs-partition result whose shard stem is present in the
ShardMap and whose origin lies under the source root but not under the shard
directory is rewritten to the origin's root-relative path with the shard's
label attached, and that path does not start with the shard-directory name.
(The unamended claim fails when the stem is missing from the map; see the
counterexample.) -/
theorem C2_docs_result_rewrite (appD : List Str) (d : Str)
    (mapping : List (Str × Endpoint.MapEntry)) (raw : Endpoint.PPath)
    (entry : Endpoint.MapEntry) (o : List Str)
    (hraw : raw.isAbs = false)
    (hluk : alookup (Endpoint.pstem (Endpoint.pjoin ⟨true, appD ++ [d]⟩ raw)) mapping =
      some entry)
    (horig : entry.original_file = ⟨true, appD ++ o⟩)
    (hnot : isPre [d] o = false) :
    Endpoint.rewrite_docs_result ⟨true, appD⟩ ⟨true, appD ++ [d]⟩ mapping raw =
      (⟨false, o⟩, some entry.label) ∧
    isPre [d]
      (Endpoint.rewrite_docs_result ⟨true, appD⟩ ⟨true, appD ++ [d]⟩ mapping raw).1.comps =
      false := by
  have hjoin : Endpoint.pjoin ⟨true, appD ++ [d]⟩ raw = ⟨true, (appD ++ [d]) ++ raw.comps⟩ := by
    simp [Endpoint.pjoin, hraw]
  have hluk2 : alookup (Endpoint.pstem ⟨true, (appD ++ [d]) ++ raw.comps⟩) mapping =
      some entry := by
    rw [← hjoin]; exact hluk
  have hdrop : (appD ++ o).drop appD.length = o := by simp
  have hrel : Endpoint.relative_to ⟨true, (appD ++ [d]) ++ raw.comps⟩ ⟨true, appD ++ [d]⟩ =
      some ⟨false, ((appD ++ [d]) ++ raw.comps).drop (appD ++ [d]).length⟩ := by
    unfold Endpoint.relative_to
    rw [if_pos (by rw [isPre_append]; rfl)]
  have horel : Endpoint.relative_to ⟨true, appD ++ o⟩ ⟨true, appD⟩ = some ⟨false, o⟩ := by
    unfold Endpoint.relative_to
    rw [if_pos (by rw [isPre_append]; rfl)]
    rw [hdrop]
  have hmain : Endpoint.rewrite_docs_result ⟨true, appD⟩ ⟨true, appD ++ [d]⟩ mapping raw =
      (⟨false, o⟩, some entry.label) := by
    simp only [Endpoint.rewrite_docs_result, hraw, Bool.false_eq_true, if_false, hjoin,
      hrel, hluk2, horig, horel]
  exact ⟨hmain, by rw [hmain]; exact hnot⟩

/-- C2 witness: shard `7.txt` of origin `r.xlsx` (sheet `A`) under root
`root` with shard folder `dd` is rewritten to `r.xlsx` with the sheet label,
free of the shard-directory prefix. -/
theorem C2_docs_result_rewrite_witness :
    Endpoint.rewrite_docs_result ⟨true, [("root").data]⟩ ⟨true, [("root").data] ++ [("dd").data]⟩
        [(("7").data, ⟨⟨true, [("root").data, ("r.xlsx").data]⟩, .sheet (("A").data)⟩)]
        ⟨false, [("dd").data, ("7.txt").data]⟩ =
      (⟨false, [("r.xlsx").data]⟩,
        some (⟨⟨true, [("root").data, ("r.xlsx").data]⟩, .sheet (("A").data)⟩ :
          Endpoint.MapEntry).label) ∧
    isPre [("dd").data]
      (Endpoint.rewrite_docs_result ⟨true, [("root").data]⟩ ⟨true, [("root").data] ++ [("dd").data]⟩
          [(("7").data, ⟨⟨true, [("root").data, ("r.xlsx").data]⟩, .sheet (("A").data)⟩)]
          ⟨false, [("dd").data, ("7.txt").data]⟩).1.comps = false :=
  C2_docs_result_rewrite [("root").data] (("dd").data)
    [(("7").data, ⟨⟨true, [("root").data, ("r.xlsx").data]⟩, .sheet (("A").data)⟩)]
    ⟨false, [("dd").data, ("7.txt").data]⟩
    ⟨⟨true, [("root").data, ("r.xlsx").data]⟩, .sheet (("A").data)⟩ [("r.xlsx").data]
    rfl (by decide) rfl (by decide)

/-- C2 counterexample: when the shard stem is absent from the ShardMap (here
the map is empty, as when `mapping.json` is missing), the docs result for
shard `12.txt` is returned with the shard-directory name still prefixed (and
doubled by anchoring the stored relative path under the shard directory),
contradicting the claim that no returned docs result carries the
shard-directory prefix. -/
theorem C2_docs_result_rewrite_counterexample :
    Endpoint.rewrite_docs_result ⟨true, [("root").data]⟩ ⟨true, [("root").data, ("dd").data]⟩ []
        ⟨false, [("dd").data, ("12.txt").data]⟩ =
      (⟨false, [("dd").data, ("dd").data, ("12.txt").data]⟩, none) ∧
    isPre [("dd").data]
      (Endpoint.rewrite_docs_result ⟨true, [("root").data]⟩ ⟨true, [("root").data, ("dd").data]⟩ []
          ⟨false, [("dd").data, ("12.txt").data]⟩).1.comps = true := by
  constructor
  · rfl
  · decide

namespace DocsLake

/-- Invariant carried through the extraction walk: ids are consecutive from 1,
the two tables stay in lock-step, and every recorded origin comes from the
allowed origin set. -/
def MapInv (origins : List Str) (st : Nat × ShardMap) : Prop :=
  1 ≤ st.1 ∧
  st.2.id_to_file.map Prod.fst = List.range' 1 (st.1 - 1) ∧
  st.2.relative_path_to_id = st.2.id_to_file.map (fun p => (p.1, p.1)) ∧
  ∀ p ∈ st.2.id_to_file, p.2.original_file ∈ origins

theorem addShard_inv {origins : List Str} {i : Nat} {m : ShardMap} {o : Str} {lab : SLabel}
    (h : MapInv origins (i, m)) (ho : o ∈ origins) :
    MapInv origins (i + 1, addShard m i o lab) := by
  obtain ⟨h1, h2, h3, h4⟩ := h
  unfold MapInv
  refine ⟨Nat.le_succ_of_le h1, ?_, ?_, ?_⟩
  · show (m.id_to_file ++ [(i, (⟨o, lab⟩ : ShardEntry))]).map Prod.fst =
      List.range' 1 (i + 1 - 1)
    rw [List.map_append, h2]
    have hi : i + 1 - 1 = (i - 1) + 1 := by omega
    rw [hi, List.range'_concat]
    have h1i : 1 ≤ i := h1
    have hv : 1 + 1 * (i - 1) = i := by omega
    rw [hv]
    simp
  · show m.relative_path_to_id ++ [(i, i)] =
      (m.id_to_file ++ [(i, (⟨o, lab⟩ : ShardEntry))]).map (fun p => (p.1, p.1))
    rw [List.map_append, h3]
    rfl
  · intro p hp
    rcases List.mem_append.mp hp with h | h
    · exact h4 p h
    · rw [List.mem_singleton.mp h]
      exact ho

theorem processSheets_inv {origins : List Str} {o : Str} (ho : o ∈ origins) :
    ∀ (sheets : List (Str × Bool)) (i : Nat) (m : ShardMap), MapInv origins (i, m) →
      MapInv origins (processSheets o sheets i m) := by
  intro sheets
  induction sheets with
  | nil => intro i m h; exact h
  | cons hd tl ih =>
    intro i m h
    obtain ⟨name, ok⟩ := hd
    cases ok with
    | true => exact ih _ _ (addShard_inv h ho)
    | false => exact ih _ _ h

theorem processPages_inv {origins : List Str} {o : Str} (ho : o ∈ origins) :
    ∀ (ws : List Bool) (pidx i : Nat) (m : ShardMap), MapInv origins (i, m) →
      MapInv origins (processPages o ws pidx i m) := by
  intro ws
  induction ws with
  | nil => intro pidx i m h; exact h
  | cons ok tl ih =>
    intro pidx i m h
    cases ok with
    | true => exact ih _ _ _ (addShard_inv h ho)
    | false => exact ih _ _ _ h

theorem processOrigin_inv {origins : List Str} {f : OriginFile} {i : Nat} {m : ShardMap}
    (h : MapInv origins (i, m)) (ho : f.conv ≠ .nothing → f.path ∈ origins) :
    MapInv origins (processOrigin f i m) := by
  cases hc : f.conv with
  | nothing => simp only [processOrigin, hc]; exact h
  | excel sheets =>
    simp only [processOrigin, hc]
    exact processSheets_inv (ho (by simp [hc])) sheets i m h
  | pages ws =>
    simp only [processOrigin, hc]
    exact processPages_inv (ho (by simp [hc])) ws 1 i m h

theorem foldl_inv {origins : List Str} :
    ∀ (fs : List OriginFile) (st : Nat × ShardMap), MapInv origins st →
      (∀ f ∈ fs, f.conv ≠ .nothing → f.path ∈ origins) →
      MapInv origins (fs.foldl (fun st f => processOrigin f st.1 st.2) st) := by
  intro fs
  induction fs with
  | nil => intro st h _; exact h
  | cons f tl ih =>
    intro st h hall
    simp only [List.foldl_cons]
    exact ih _ (processOrigin_inv h (hall f (List.mem_cons_self _ _)))
      fun g hg => hall g (List.mem_cons_of_mem _ hg)

theorem startInv (origins : List Str) : MapInv origins (1, ⟨[], []⟩) := by
  unfold MapInv
  refine ⟨Nat.le_refl 1, ?_, rfl, ?_⟩
  · simp [List.range']
  · intro p hp; cases hp

/-- The allowed origin set: paths of walk files whose conversion yielded a
non-empty result. -/
def liveOrigins (files : List OriginFile) : List Str :=
  (files.filter fun g => decide (g.conv ≠ .nothing)).map OriginFile.path

theorem convert_all_files_inv (files : List OriginFile) :
    MapInv (liveOrigins files)
      (files.foldl (fun st f => processOrigin f st.1 st.2) ((1, ⟨[], []⟩) : Nat × ShardMap)) := by
  refine foldl_inv files _ (startInv _) ?_
  intro f hf hnc
  exact List.mem_map.mpr ⟨f, List.mem_filter.mpr ⟨hf, by simpa using hnc⟩, rfl⟩

end DocsLake

namespace DocsLake

theorem processSheets_sub {o : Str} :
    ∀ (sheets : List (Str × Bool)) (i : Nat) (m : ShardMap) (p : Nat × ShardEntry),
      p ∈ m.id_to_file → p ∈ (processSheets o sheets i m).2.id_to_file := by
  intro sheets
  induction sheets with
  | nil => intro i m p hp; exact hp
  | cons hd tl ih =>
    intro i m p hp
    obtain ⟨name, ok⟩ := hd
    cases ok with
    | true => exact ih _ _ p (List.mem_append_left _ hp)
    | false => exact ih _ _ p hp

theorem processPages_sub {o : Str} :
    ∀ (ws : List Bool) (pidx i : Nat) (m : ShardMap) (p : Nat × ShardEntry),
      p ∈ m.id_to_file → p ∈ (processPages o ws pidx i m).2.id_to_file := by
  intro ws
  induction ws with
  | nil => intro pidx i m p hp; exact hp
  | cons ok tl ih =>
    intro pidx i m p hp
    cases ok with
    | true => exact ih _ _ _ p (List.mem_append_left _ hp)
    | false => exact ih _ _ _ p hp

theorem processOrigin_sub {f : OriginFile} {i : Nat} {m : ShardMap} {p : Nat × ShardEntry}
    (hp : p ∈ m.id_to_file) : p ∈ (processOrigin f i m).2.id_to_file := by
  cases hc : f.conv with
  | nothing => simp only [processOrigin, hc]; exact hp
  | excel sheets => simp only [processOrigin, hc]; exact processSheets_sub sheets i m p hp
  | pages ws => simp only [processOrigin, hc]; exact processPages_sub ws 1 i m p hp

theorem foldl_sub :
    ∀ (fs : List OriginFile) (st : Nat × ShardMap) (p : Nat × ShardEntry),
      p ∈ st.2.id_to_file →
      p ∈ (fs.foldl (fun st f => processOrigin f st.1 st.2) st).2.id_to_file := by
  intro fs
  induction fs with
  | nil => intro st p hp; exact hp
  | cons f tl ih =>
    intro st p hp
    simp only [List.foldl_cons]
    exact ih _ p (processOrigin_sub hp)

theorem processSheets_complete {o : Str} :
    ∀ (sheets : List (Str × Bool)) (i : Nat) (m : ShardMap) (name : Str),
      (name, true) ∈ sheets →
      ∃ j, (j, (⟨o, .sheet name⟩ : ShardEntry)) ∈ (processSheets o sheets i m).2.id_to_file := by
  intro sheets
  induction sheets with
  | nil => intro i m name h; cases h
  | cons hd tl ih =>
    intro i m name h
    obtain ⟨nm, ok⟩ := hd
    rcases List.mem_cons.mp h with heq | hmem
    · obtain ⟨rfl, rfl⟩ : nm = name ∧ ok = true := by
        cases heq; exact ⟨rfl, rfl⟩
      exact ⟨i, processSheets_sub tl _ _ _
        (List.mem_append_right _ (List.mem_singleton.mpr rfl))⟩
    · cases ok with
      | true => exact ih _ _ name hmem
      | false => exact ih _ _ name hmem

theorem processPages_complete {o : Str} :
    ∀ (ws : List Bool) (pidx i : Nat) (m : ShardMap) (j0 : Nat),
      ws[j0]? = some true →
      ∃ j, (j, (⟨o, .page (pidx + j0)⟩ : ShardEntry)) ∈
        (processPages o ws pidx i m).2.id_to_file := by
  intro ws
  induction ws with
  | nil => intro pidx i m j0 h; simp at h
  | cons ok tl ih =>
    intro pidx i m j0 h
    cases j0 with
    | zero =>
      simp only [List.getElem?_cons_zero, Option.some_inj] at h
      subst h
      refine ⟨i, ?_⟩
      have : (i, (⟨o, .page pidx⟩ : ShardEntry)) ∈ (addShard m i o (.page pidx)).id_to_file :=
        List.mem_append_right _ (List.mem_singleton.mpr rfl)
      simpa using processPages_sub tl (pidx + 1) (i + 1) _ _ this
    | succ j1 =>
      simp only [List.getElem?_cons_succ] at h
      cases ok with
      | true =>
        obtain ⟨j, hj⟩ := ih (pidx + 1) (i + 1) (addShard m i o (.page pidx)) j1 h
        refine ⟨j, ?_⟩
        have harith : pidx + 1 + j1 = pidx + (j1 + 1) := by omega
        rw [harith] at hj
        exact hj
      | false =>
        obtain ⟨j, hj⟩ := ih (pidx + 1) i m j1 h
        refine ⟨j, ?_⟩
        have harith : pidx + 1 + j1 = pidx + (j1 + 1) := by omega
        rw [harith] at hj
        exact hj

theorem foldl_complete_sheets {f : OriginFile} {sheets : List (Str × Bool)} {name : Str}
    (hc : f.conv = .excel sheets) (hok : (name, true) ∈ sheets) :
    ∀ (fs : List OriginFile) (st : Nat × ShardMap), f ∈ fs →
      ∃ j, (j, (⟨f.path, .sheet name⟩ : ShardEntry)) ∈
        (fs.foldl (fun st f => processOrigin f st.1 st.2) st).2.id_to_file := by
  intro fs
  induction fs with
  | nil => intro st h; cases h
  | cons g tl ih =>
    intro st hmem
    simp only [List.foldl_cons]
    rcases List.mem_cons.mp hmem with rfl | hmem2
    · obtain ⟨j, hj⟩ : ∃ j, (j, (⟨f.path, .sheet name⟩ : ShardEntry)) ∈
          (processOrigin f st.1 st.2).2.id_to_file := by
        rw [show processOrigin f st.1 st.2 = processSheets f.path sheets st.1 st.2 by
          simp only [processOrigin, hc]]
        exact processSheets_complete sheets st.1 st.2 name hok
      exact ⟨j, foldl_sub tl _ _ hj⟩
    · exact ih _ hmem2

theorem foldl_complete_pages {f : OriginFile} {ws : List Bool} {j0 : Nat}
    (hc : f.conv = .pages ws) (hok : ws[j0]? = some true) :
    ∀ (fs : List OriginFile) (st : Nat × ShardMap), f ∈ fs →
      ∃ j, (j, (⟨f.path, .page (1 + j0)⟩ : ShardEntry)) ∈
        (fs.foldl (fun st f => processOrigin f st.1 st.2) st).2.id_to_file := by
  intro fs
  induction fs with
  | nil => intro st h; cases h
  | cons g tl ih =>
    intro st hmem
    simp only [List.foldl_cons]
    rcases List.mem_cons.mp hmem with rfl | hmem2
    · obtain ⟨j, hj⟩ : ∃ j, (j, (⟨f.path, .page (1 + j0)⟩ : ShardEntry)) ∈
          (processOrigin f st.1 st.2).2.id_to_file := by
        rw [show processOrigin f st.1 st.2 = processPages f.path ws 1 st.1 st.2 by
          simp only [processOrigin, hc]]
        exact processPages_complete ws 1 st.1 st.2 j0 hok
      exact ⟨j, foldl_sub tl _ _ hj⟩
    · exact ih _ hmem2

end DocsLake

/-- C4: over one extraction run, the recorded shard ids are exactly the
consecutive integers from 1 in insertion order, every `id_to_file` entry
records the resolved path of one of the walked origin files, and
`relative_path_to_id` maps each shard file back to its own id, so the two
tables are inverses over the run's shards. -/
theorem C4_shard_map_tables (files : List DocsLake.OriginFile) :
    ((DocsLake.convert_all_files files).id_to_file.map Prod.fst =
      List.range' 1 (DocsLake.convert_all_files files).id_to_file.length) ∧
    ((DocsLake.convert_all_files files).relative_path_to_id =
      (DocsLake.convert_all_files files).id_to_file.map fun p => (p.1, p.1)) ∧
    (∀ p ∈ (DocsLake.convert_all_files files).id_to_file,
      p.2.original_file ∈ files.map DocsLake.OriginFile.path) ∧
    (∀ j e, (j, e) ∈ (DocsLake.convert_all_files files).id_to_file →
      alookup j (DocsLake.convert_all_files files).relative_path_to_id = some j) := by
  obtain ⟨h1, h2, h3, h4⟩ := DocsLake.convert_all_files_inv files
  have h2c : (DocsLake.convert_all_files files).id_to_file.map Prod.fst =
      List.range' 1 ((files.foldl (fun st f => DocsLake.processOrigin f st.1 st.2)
        ((1, ⟨[], []⟩) : Nat × DocsLake.ShardMap)).1 - 1) := h2
  have h3c : (DocsLake.convert_all_files files).relative_path_to_id =
      (DocsLake.convert_all_files files).id_to_file.map (fun p => (p.1, p.1)) := h3
  have hlen : (DocsLake.convert_all_files files).id_to_file.length =
      (files.foldl (fun st f => DocsLake.processOrigin f st.1 st.2)
        ((1, ⟨[], []⟩) : Nat × DocsLake.ShardMap)).1 - 1 := by
    have hc := congrArg List.length h2c
    simpa using hc
  refine ⟨?_, h3c, ?_, ?_⟩
  · rw [hlen]
    exact h2c
  · intro p hp
    obtain ⟨g, hgfil, hgp⟩ := List.mem_map.mp (h4 p hp)
    exact List.mem_map.mpr ⟨g, (List.mem_filter.mp hgfil).1, hgp⟩
  · intro j e hje
    have hmem : (j, j) ∈ (DocsLake.convert_all_files files).relative_path_to_id := by
      rw [h3c]
      exact List.mem_map.mpr ⟨(j, e), hje, rfl⟩
    have hkeys : (DocsLake.convert_all_files files).relative_path_to_id.map Prod.fst =
        (DocsLake.convert_all_files files).id_to_file.map Prod.fst := by
      rw [h3c, List.map_map]
      rfl
    have hnd : ((DocsLake.convert_all_files files).relative_path_to_id.map Prod.fst).Nodup := by
      rw [hkeys, h2c]
      exact List.nodup_range' _ _
    exact alookup_of_mem_nodup hnd hmem

/-- C4 witness: for a run over one spreadsheet with one sheet, shard file
`1.txt` maps back to id 1. -/
theorem C4_shard_map_tables_witness :
    alookup 1 (DocsLake.convert_all_files
      [⟨("a.xlsx").data, .excel [(("A").data, true)]⟩]).relative_path_to_id = some 1 :=
  (C4_shard_map_tables [⟨("a.xlsx").data, .excel [(("A").data, true)]⟩]).2.2.2 1
    ⟨("a.xlsx").data, .sheet (("A").data)⟩ (by decide)

/-- C5 (amended): an origin whose conversion fails contributes no ShardMap
entries at all, and every successfully written shard of any origin keeps its
entry with the correct origin and label.  A shard whose own write fails
contributes no entry, but — contrary to the unamended claim — the earlier
successfully written shards of the same origin remain in the final ShardMap
(see the counterexample). -/
theorem C5_extraction_failure_isolation (files : List DocsLake.OriginFile)
    (f : DocsLake.OriginFile) (hf : f ∈ files) :
    (f.conv = .nothing → (∀ g ∈ files, g.path = f.path → g.conv = .nothing) →
      ∀ p ∈ (DocsLake.convert_all_files files).id_to_file,
        p.2.original_file ≠ f.path) ∧
    (∀ sheets name, f.conv = .excel sheets → (name, true) ∈ sheets →
      ∃ j, (j, (⟨f.path, .sheet name⟩ : DocsLake.ShardEntry)) ∈
        (DocsLake.convert_all_files files).id_to_file) ∧
    (∀ ws j0, f.conv = .pages ws → ws[j0]? = some true →
      ∃ j, (j, (⟨f.path, .page (1 + j0)⟩ : DocsLake.ShardEntry)) ∈
        (DocsLake.convert_all_files files).id_to_file) := by
  obtain ⟨h1, h2, h3, h4⟩ := DocsLake.convert_all_files_inv files
  refine ⟨?_, ?_, ?_⟩
  · intro hconv huniq p hp heq
    obtain ⟨g, hgfil, hgp⟩ := List.mem_map.mp (h4 p hp)
    obtain ⟨hgfiles, hgdec⟩ := List.mem_filter.mp hgfil
    have hgnc : g.conv ≠ .nothing := by simpa using hgdec
    exact hgnc (huniq g hgfiles (by rw [hgp, heq]))
  · intro sheets name hc hok
    exact DocsLake.foldl_complete_sheets hc hok files _ hf
  · intro ws j0 hc hok
    exact DocsLake.foldl_complete_pages hc hok files _ hf

/-- C5 witness: a PDF whose two pages both write successfully keeps both its
entries; an unconvertible sibling contributes nothing. -/
theorem C5_extraction_failure_isolation_witness :
    ∃ j, (j, (⟨("d.pdf").data, .page (1 + 0)⟩ : DocsLake.ShardEntry)) ∈
      (DocsLake.convert_all_files
        [⟨("bad.docx").data, .nothing⟩, ⟨("d.pdf").data, .pages [true, true]⟩]).id_to_file :=
  (C5_extraction_failure_isolation
      [⟨("bad.docx").data, .nothing⟩, ⟨("d.pdf").data, .pages [true, true]⟩]
      ⟨("d.pdf").data, .pages [true, true]⟩ (by decide)).2.2 [true, true] 0 rfl (by decide)

/-- C5 counterexample: one PDF whose first page writes and whose second page
write raises leaves the first page's entry in the final ShardMap — a partial
entry for an origin on which extraction failed, contrary to the claim. -/
theorem C5_extraction_failure_isolation_counterexample :
    (DocsLake.convert_all_files [⟨("doc.pdf").data, .pages [true, false]⟩]).id_to_file =
      [(1, (⟨("doc.pdf").data, .page 1⟩ : DocsLake.ShardEntry))] ∧
    (1, (⟨("doc.pdf").data, .page 1⟩ : DocsLake.ShardEntry)) ∈
      (DocsLake.convert_all_files [⟨("doc.pdf").data, .pages [true, false]⟩]).id_to_file := by
  constructor
  · decide
  · decide

namespace IndexOptimizer

theorem mem_upsert_self (ix : List Str) (p : Str) : p ∈ upsert ix p := by
  unfold upsert
  by_cases h : p ∈ ix
  · rw [if_pos h]; exact h
  · rw [if_neg h]; exact List.mem_append_right _ (List.mem_singleton.mpr rfl)

theorem mem_upsert_of_mem {ix : List Str} {p : Str} (q : Str) (h : p ∈ ix) :
    p ∈ upsert ix q := by
  unfold upsert
  by_cases hq : q ∈ ix
  · rw [if_pos hq]; exact h
  · rw [if_neg hq]; exact List.mem_append_left _ h

theorem mem_of_mem_upsert {ix : List Str} {p q : Str} (h : p ∈ upsert ix q) :
    p ∈ ix ∨ p = q := by
  unfold upsert at h
  by_cases hq : q ∈ ix
  · rw [if_pos hq] at h; exact Or.inl h
  · rw [if_neg hq] at h
    rcases List.mem_append.mp h with h1 | h1
    · exact Or.inl h1
    · exact Or.inr (List.mem_singleton.mp h1)

theorem mem_foldl_upsert_of_mem :
    ∀ (l : List FsFile) (ix : List Str) (p : Str), p ∈ ix →
      p ∈ l.foldl (fun ix f => upsert ix f.path) ix := by
  intro l
  induction l with
  | nil => intro ix p h; exact h
  | cons f tl ih =>
    intro ix p h
    simp only [List.foldl_cons]
    exact ih _ p (mem_upsert_of_mem f.path h)

theorem mem_foldl_upsert_self :
    ∀ (l : List FsFile) (ix : List Str) (f : FsFile), f ∈ l →
      f.path ∈ l.foldl (fun ix f => upsert ix f.path) ix := by
  intro l
  induction l with
  | nil => intro ix f h; cases h
  | cons g tl ih =>
    intro ix f h
    simp only [List.foldl_cons]
    rcases List.mem_cons.mp h with rfl | h2
    · exact mem_foldl_upsert_of_mem tl _ f.path (mem_upsert_self ix f.path)
    · exact ih _ f h2

theorem mem_of_mem_foldl_upsert :
    ∀ (l : List FsFile) (ix : List Str) (p : Str),
      p ∈ l.foldl (fun ix f => upsert ix f.path) ix → p ∈ ix ∨ p ∈ l.map FsFile.path := by
  intro l
  induction l with
  | nil => intro ix p h; exact Or.inl h
  | cons f tl ih =>
    intro ix p h
    simp only [List.foldl_cons] at h
    rcases ih _ p h with h1 | h1
    · rcases mem_of_mem_upsert h1 with h2 | h2
      · exact Or.inl h2
      · exact Or.inr (by rw [h2]; exact List.mem_map.mpr ⟨f, List.mem_cons_self _ _, rfl⟩)
    · exact Or.inr (List.mem_map.mpr
        (by
          obtain ⟨g, hg, hgp⟩ := List.mem_map.mp h1
          exact ⟨g, List.mem_cons_of_mem _ hg, hgp⟩))

theorem currentOf_keys (fs : List FsFile) :
    (currentOf fs).map Prod.fst = fs.map FsFile.path := by
  unfold currentOf
  rw [List.map_map]
  rfl

theorem update_partition_run {force : Bool} {prevMeta : Meta} {prevIndex : List Str}
    {fs : List FsFile} (h : ((dirtyOf force prevMeta fs).isEmpty && !force) = false) :
    update_partition force prevMeta prevIndex fs =
      ⟨finalIndex force prevMeta prevIndex fs, currentOf fs,
       (processedOf force prevMeta fs).length, (staleOf force prevMeta fs).length⟩ := by
  unfold update_partition
  simp only [h, Bool.false_eq_true, if_false]

theorem update_partition_skip {force : Bool} {prevMeta : Meta} {prevIndex : List Str}
    {fs : List FsFile} (h : ((dirtyOf force prevMeta fs).isEmpty && !force) = true) :
    update_partition force prevMeta prevIndex fs = ⟨prevIndex, prevMeta, 0, 0⟩ := by
  unfold update_partition
  simp only [h, if_true]

end IndexOptimizer

/-- C1 (amended): in an update where the writer runs (some file is dirty or a
rebuild is forced), the persisted metadata is exactly the current walk; every
previous-metadata path absent from the walk is deleted and absent from the
committed index in the same update; and every dirty non-binary readable file
has a document under its path key.  The unamended claim — that the index key
set always equals the metadata path set — fails for a dirty file whose
content is binary or unreadable, which is recorded in the metadata but never
upserted (see the counterexample). -/
theorem C1_index_metadata_coverage (force : Bool) (prevMeta : IndexOptimizer.Meta)
    (prevIndex : List Str) (fs : List IndexOptimizer.FsFile)
    (hrun : ((IndexOptimizer.dirtyOf force prevMeta fs).isEmpty && !force) = false) :
    (IndexOptimizer.update_partition force prevMeta prevIndex fs).persistedMeta =
      IndexOptimizer.currentOf fs ∧
    (∀ p ∈ prevMeta.map Prod.fst, p ∉ fs.map IndexOptimizer.FsFile.path →
      p ∉ (IndexOptimizer.update_partition force prevMeta prevIndex fs).index) ∧
    (∀ f ∈ fs, IndexOptimizer.dirtyCheck force prevMeta f = true →
      f.binary = false → f.readable = true →
      f.path ∈ (IndexOptimizer.update_partition force prevMeta prevIndex fs).index) := by
  rw [IndexOptimizer.update_partition_run hrun]
  refine ⟨rfl, ?_, ?_⟩
  · intro p hp hnp hmem
    dsimp only at hmem
    unfold IndexOptimizer.finalIndex at hmem
    rcases IndexOptimizer.mem_of_mem_foldl_upsert _ _ _ hmem with hbase | hproc
    · cases force with
      | true =>
        simp [IndexOptimizer.baseIndex] at hbase
      | false =>
        have hdec := (List.mem_filter.mp hbase).2
        have hnstale : p ∉ IndexOptimizer.staleOf false prevMeta fs := by
          simpa using hdec
        apply hnstale
        show p ∈ (prevMeta.map Prod.fst).filter
          fun p => (alookup p (IndexOptimizer.currentOf fs)).isNone
        refine List.mem_filter.mpr ⟨hp, ?_⟩
        have hnone : alookup p (IndexOptimizer.currentOf fs) = none :=
          alookup_eq_none (by rw [IndexOptimizer.currentOf_keys]; exact hnp)
        simp [hnone]
    · apply hnp
      obtain ⟨f, hfproc, hfp⟩ := List.mem_map.mp hproc
      have hffs : f ∈ fs := by
        have h1 := (List.mem_filter.mp hfproc).1
        exact (List.mem_filter.mp h1).1
      exact List.mem_map.mpr ⟨f, hffs, hfp⟩
  · intro f hf hd hb hr
    dsimp only
    unfold IndexOptimizer.finalIndex
    apply IndexOptimizer.mem_foldl_upsert_self
    refine List.mem_filter.mpr ⟨List.mem_filter.mpr ⟨hf, hd⟩, ?_⟩
    rw [hb, hr]
    rfl

/-- C1 witness: a dirty, readable, non-binary file is both recorded in the
persisted metadata and present in the committed index. -/
theorem C1_index_metadata_coverage_witness :
    (IndexOptimizer.update_partition false [] []
        [⟨("m.py").data, ⟨1, 2⟩, false, true⟩]).persistedMeta =
      IndexOptimizer.currentOf [⟨("m.py").data, ⟨1, 2⟩, false, true⟩] ∧
    ("m.py").data ∈ (IndexOptimizer.update_partition false [] []
      [⟨("m.py").data, ⟨1, 2⟩, false, true⟩]).index :=
  ⟨(C1_index_metadata_coverage false [] [] [⟨("m.py").data, ⟨1, 2⟩, false, true⟩]
      (by decide)).1,
   (C1_index_metadata_coverage false [] [] [⟨("m.py").data, ⟨1, 2⟩, false, true⟩]
      (by decide)).2.2 ⟨("m.py").data, ⟨1, 2⟩, false, true⟩ (by decide) (by decide) rfl rfl⟩

/-- C1 counterexample: a new `.txt` file whose content triggers the NUL-byte
binary sniff is dirty, so the writer runs, commits, and persists a metadata
table containing the file — but no document was ever upserted, so the index
key set is empty while the metadata records one path: the claimed equality
fails after this update. -/
theorem C1_index_metadata_coverage_counterexample :
    (IndexOptimizer.update_partition false [] []
        [⟨("b.txt").data, ⟨5, 7⟩, true, true⟩]).persistedMeta.map Prod.fst =
      [("b.txt").data] ∧
    (IndexOptimizer.update_partition false [] []
        [⟨("b.txt").data, ⟨5, 7⟩, true, true⟩]).index = [] ∧
    ¬ (∀ p ∈ (IndexOptimizer.update_partition false [] []
          [⟨("b.txt").data, ⟨5, 7⟩, true, true⟩]).persistedMeta.map Prod.fst,
        p ∈ (IndexOptimizer.update_partition false [] []
          [⟨("b.txt").data, ⟨5, 7⟩, true, true⟩]).index) := by
  refine ⟨by decide, by decide, by decide⟩

/-- C6: running the incremental update a second time over an unchanged walk
(no forced rebuild) performs zero writer upserts and zero deletions and
leaves the persisted metadata identical to the first run's, because a file is
dirty only when absent from the previous metadata or when its `(mtime, size)`
signature differs. -/
theorem C6_second_run_noop (force : Bool) (prevMeta : IndexOptimizer.Meta)
    (prevIndex : List Str) (fs : List IndexOptimizer.FsFile)
    (hnd : (fs.map IndexOptimizer.FsFile.path).Nodup) :
    (IndexOptimizer.update_partition false
        (IndexOptimizer.update_partition force prevMeta prevIndex fs).persistedMeta
        (IndexOptimizer.update_partition force prevMeta prevIndex fs).index fs).upserts = 0 ∧
    (IndexOptimizer.update_partition false
        (IndexOptimizer.update_partition force prevMeta prevIndex fs).persistedMeta
        (IndexOptimizer.update_partition force prevMeta prevIndex fs).index fs).deletes = 0 ∧
    (IndexOptimizer.update_partition false
        (IndexOptimizer.update_partition force prevMeta prevIndex fs).persistedMeta
        (IndexOptimizer.update_partition force prevMeta prevIndex fs).index fs).persistedMeta =
      (IndexOptimizer.update_partition force prevMeta prevIndex fs).persistedMeta := by
  have hkey : ∀ f ∈ fs, alookup f.path (IndexOptimizer.currentOf fs) = some f.sig := by
    intro f hf
    apply alookup_of_mem_nodup
    · rw [IndexOptimizer.currentOf_keys]; exact hnd
    · exact List.mem_map.mpr ⟨f, hf, rfl⟩
  have hdirty_current : IndexOptimizer.dirtyOf false (IndexOptimizer.currentOf fs) fs = [] := by
    unfold IndexOptimizer.dirtyOf
    rw [List.filter_eq_nil_iff]
    intro f hf
    unfold IndexOptimizer.dirtyCheck
    simp [hkey f hf]
  by_cases hskip : ((IndexOptimizer.dirtyOf force prevMeta fs).isEmpty && !force) = true
  · rw [IndexOptimizer.update_partition_skip hskip]
    dsimp only
    simp only [Bool.and_eq_true] at hskip
    have hforce : force = false := by
      cases force
      · rfl
      · simp at hskip
    have hd0 : IndexOptimizer.dirtyOf false prevMeta fs = [] := by
      rw [← hforce]
      exact List.isEmpty_iff.mp hskip.1
    have hskip2 : ((IndexOptimizer.dirtyOf false prevMeta fs).isEmpty && !false) = true := by
      simp [hd0]
    rw [IndexOptimizer.update_partition_skip hskip2]
    exact ⟨rfl, rfl, rfl⟩
  · have hrun : ((IndexOptimizer.dirtyOf force prevMeta fs).isEmpty && !force) = false := by
      revert hskip
      cases ((IndexOptimizer.dirtyOf force prevMeta fs).isEmpty && !force)
      · intro _; rfl
      · intro h; exact absurd rfl h
    rw [IndexOptimizer.update_partition_run hrun]
    dsimp only
    have hskip2 : ((IndexOptimizer.dirtyOf false (IndexOptimizer.currentOf fs) fs).isEmpty
        && !false) = true := by
      simp [hdirty_current]
    rw [IndexOptimizer.update_partition_skip hskip2]
    exact ⟨rfl, rfl, rfl⟩

/-- C6 witness: a second run over one unchanged source file performs no
upserts and no deletions and keeps the metadata table. -/
theorem C6_second_run_noop_witness :
    (IndexOptimizer.update_partition false
        (IndexOptimizer.update_partition false [] []
          [⟨("m.py").data, ⟨1, 2⟩, false, true⟩]).persistedMeta
        (IndexOptimizer.update_partition false [] []
          [⟨("m.py").data, ⟨1, 2⟩, false, true⟩]).index
        [⟨("m.py").data, ⟨1, 2⟩, false, true⟩]).upserts = 0 ∧
    (IndexOptimizer.update_partition false
        (IndexOptimizer.update_partition false [] []
          [⟨("m.py").data, ⟨1, 2⟩, false, true⟩]).persistedMeta
        (IndexOptimizer.update_partition false [] []
          [⟨("m.py").data, ⟨1, 2⟩, false, true⟩]).index
        [⟨("m.py").data, ⟨1, 2⟩, false, true⟩]).deletes = 0 ∧
    (IndexOptimizer.update_partition false
        (IndexOptimizer.update_partition false [] []
          [⟨("m.py").data, ⟨1, 2⟩, false, true⟩]).persistedMeta
        (IndexOptimizer.update_partition false [] []
          [⟨("m.py").data, ⟨1, 2⟩, false, true⟩]).index
        [⟨("m.py").data, ⟨1, 2⟩, false, true⟩]).persistedMeta =
      (IndexOptimizer.update_partition false [] []
        [⟨("m.py").data, ⟨1, 2⟩, false, true⟩]).persistedMeta :=
  C6_second_run_noop false [] [] [⟨("m.py").data, ⟨1, 2⟩, false, true⟩] (by decide)

namespace DirSearch

theorem mem_insSorted {x p : Str} : ∀ l : List Str, p ∈ insSorted x l ↔ p = x ∨ p ∈ l := by
  intro l
  induction l with
  | nil => simp [insSorted]
  | cons y ys ih =>
    unfold insSorted
    by_cases h : strLe x y = true
    · rw [if_pos h]
      simp
    · rw [if_neg h]
      simp only [List.mem_cons, ih]
      tauto

theorem mem_sortStrs {p : Str} : ∀ l : List Str, p ∈ sortStrs l ↔ p ∈ l := by
  intro l
  induction l with
  | nil => simp [sortStrs]
  | cons y ys ih =>
    unfold sortStrs at ih ⊢
    simp only [List.foldr_cons, mem_insSorted, ih, List.mem_cons]

theorem mem_dedupSort {p : Str} {l : List Str} : p ∈ dedupSort l ↔ p ∈ l := by
  unfold dedupSort
  rw [mem_sortStrs, List.mem_dedup]

theorem exactLoop_spec (idx : SIndex) (frp ext : Str) :
    ∀ (kws : List Str) (acc : List Str) (p : Str), p ∈ exactLoop idx frp ext kws acc →
      (acc ≠ [] → p ∈ acc) ∧
      (∀ k ∈ kws, ∀ paths, alookup k idx.exact = some paths →
        p ∈ filterPaths frp ext paths) ∧
      (p ∈ acc ∨ ∃ k ∈ kws, ∃ paths, alookup k idx.exact = some paths ∧
        p ∈ filterPaths frp ext paths) := by
  intro kws
  induction kws with
  | nil =>
    intro acc p hp
    refine ⟨fun _ => hp, ?_, Or.inl hp⟩
    intro k hk
    cases hk
  | cons k ks ih =>
    intro acc p hp
    unfold exactLoop at hp
    cases hl : alookup k idx.exact with
    | none =>
      rw [hl] at hp
      obtain ⟨ha, hall, hor⟩ := ih acc p hp
      refine ⟨ha, ?_, ?_⟩
      · intro k2 hk2 paths hp2
        rcases List.mem_cons.mp hk2 with rfl | hk3
        · rw [hl] at hp2; cases hp2
        · exact hall k2 hk3 paths hp2
      · rcases hor with h | ⟨k2, hk2, paths, hp2, hp3⟩
        · exact Or.inl h
        · exact Or.inr ⟨k2, List.mem_cons_of_mem _ hk2, paths, hp2, hp3⟩
    | some paths =>
      rw [hl] at hp
      dsimp only at hp
      by_cases hemp : (if acc.isEmpty then filterPaths frp ext paths
          else acc.filter fun p => decide (p ∈ filterPaths frp ext paths)).isEmpty = true
      · rw [if_pos hemp] at hp
        rw [List.isEmpty_iff.mp hemp] at hp
        cases hp
      · rw [if_neg hemp] at hp
        obtain ⟨ha, hall, _⟩ := ih _ p hp
        have hacc2 : p ∈ (if acc.isEmpty then filterPaths frp ext paths
            else acc.filter fun p => decide (p ∈ filterPaths frp ext paths)) := by
          apply ha
          intro hnil
          rw [hnil] at hemp
          simp at hemp
        by_cases haccnil : acc.isEmpty = true
        · rw [if_pos haccnil] at hacc2
          refine ⟨?_, ?_, ?_⟩
          · intro hne
            exact absurd (List.isEmpty_iff.mp haccnil) hne
          · intro k2 hk2 paths2 hp2
            rcases List.mem_cons.mp hk2 with rfl | hk3
            · rw [hl] at hp2
              cases hp2
              exact hacc2
            · exact hall k2 hk3 paths2 hp2
          · exact Or.inr ⟨k, List.mem_cons_self _ _, paths, hl, hacc2⟩
        · rw [if_neg haccnil] at hacc2
          have hpacc := (List.mem_filter.mp hacc2).1
          have hpfil : p ∈ filterPaths frp ext paths := by
            have := (List.mem_filter.mp hacc2).2
            simpa using this
          refine ⟨fun _ => hpacc, ?_, Or.inl hpacc⟩
          intro k2 hk2 paths2 hp2
          rcases List.mem_cons.mp hk2 with rfl | hk3
          · rw [hl] at hp2
            cases hp2
            exact hpfil
          · exact hall k2 hk3 paths2 hp2

end DirSearch

/-- C7 (amended): every path returned by a filename search in AND mode lies
either in the exact phase — where it belongs to the folder/extension-filtered
exact-hit list of some query token that is an exact-index key and of every
query token that is an exact-index key, tokens absent from the exact index
being skipped — or in the substring phase, where its stored lowercase
basename contains every query token.  The unamended claim — that every
returned path matches every token — fails because the exact AND loop skips
tokens that are not index keys (see the counterexample). -/
theorem C7_filename_search_and (idx : DirSearch.SIndex) (kws : List Str) (frp ext : Str)
    (maxR : Nat) (p : Str) (hp : p ∈ DirSearch.search_files_and idx kws frp ext maxR) :
    ((∃ k ∈ kws, ∃ paths, alookup k idx.exact = some paths ∧
        p ∈ DirSearch.filterPaths frp ext paths) ∧
      (∀ k ∈ kws, ∀ paths, alookup k idx.exact = some paths →
        p ∈ DirSearch.filterPaths frp ext paths)) ∨
    (∃ fname, (p, fname) ∈ idx.files ∧ ∀ k ∈ kws, isSub k fname = true) := by
  unfold DirSearch.search_files_and at hp
  set em := DirSearch.exactLoop idx frp ext kws [] with hem
  have hpall : p ∈ (if em.length < maxR then
      em ++ ((idx.files.filter fun pr =>
          (frp.isEmpty || isPre frp pr.1) &&
          (ext.isEmpty || isSuf (ext.map Char.toLower) (pr.1.map Char.toLower)) &&
          kws.all (fun k => isSub k pr.2) &&
          decide (pr.1 ∉ em)).map Prod.fst).take (maxR - em.length)
    else em) := by
    by_cases hne : (if em.length < maxR then
        em ++ ((idx.files.filter fun pr =>
            (frp.isEmpty || isPre frp pr.1) &&
            (ext.isEmpty || isSuf (ext.map Char.toLower) (pr.1.map Char.toLower)) &&
            kws.all (fun k => isSub k pr.2) &&
            decide (pr.1 ∉ em)).map Prod.fst).take (maxR - em.length)
      else em).isEmpty = true
    · rw [if_pos hne] at hp
      cases hp
    · rw [if_neg hne] at hp
      have := List.take_subset maxR _ hp
      exact DirSearch.mem_dedupSort.mp this
  have hcase : p ∈ em ∨ p ∈ ((idx.files.filter fun pr =>
      (frp.isEmpty || isPre frp pr.1) &&
      (ext.isEmpty || isSuf (ext.map Char.toLower) (pr.1.map Char.toLower)) &&
      kws.all (fun k => isSub k pr.2) &&
      decide (pr.1 ∉ em)).map Prod.fst).take (maxR - em.length) := by
    by_cases hlt : em.length < maxR
    · rw [if_pos hlt] at hpall
      exact List.mem_append.mp hpall
    · rw [if_neg hlt] at hpall
      exact Or.inl hpall
  rcases hcase with hex | hsub
  · obtain ⟨_, hall, hor⟩ := DirSearch.exactLoop_spec idx frp ext kws [] p hex
    rcases hor with h | h
    · cases h
    · exact Or.inl ⟨h, hall⟩
  · right
    have hsub2 := List.take_subset _ _ hsub
    obtain ⟨pr, hprmem, hprp⟩ := List.mem_map.mp hsub2
    have hcond := (List.mem_filter.mp hprmem).2
    simp only [Bool.and_eq_true, List.all_eq_true] at hcond
    refine ⟨pr.2, ?_, ?_⟩
    · rw [← hprp]
      exact (List.mem_filter.mp hprmem).1
    · exact hcond.1.2

/-- C7 witness: for the single file `readme.txt` and the query token
`readme`, the returned path satisfies the amended guarantee. -/
theorem C7_filename_search_and_witness :
    ((∃ k ∈ [("readme").data], ∃ paths,
        alookup k (DirSearch.build_search_index
          [(("readme.txt").data, ("readme.txt").data)]).exact = some paths ∧
        ("readme.txt").data ∈ DirSearch.filterPaths [] [] paths) ∧
      (∀ k ∈ [("readme").data], ∀ paths,
        alookup k (DirSearch.build_search_index
          [(("readme.txt").data, ("readme.txt").data)]).exact = some paths →
        ("readme.txt").data ∈ DirSearch.filterPaths [] [] paths)) ∨
    (∃ fname, (("readme.txt").data, fname) ∈
        (DirSearch.build_search_index [(("readme.txt").data, ("readme.txt").data)]).files ∧
      ∀ k ∈ [("readme").data], isSub k fname = true) :=
  C7_filename_search_and (DirSearch.build_search_index
      [(("readme.txt").data, ("readme.txt").data)])
    [("readme").data] [] [] 10 (("readme.txt").data) (by decide)

/-- C7 counterexample: with the single file `readme.txt` and the AND query
`readme.txt zzz`, the token `zzz` is not an exact-index key, so the exact AND
loop skips it and the search returns `readme.txt` — yet `zzz` matches neither
the basename, the stem, nor the extension key, nor is it a substring of the
basename, contradicting the claim that every returned path matches every
token. -/
theorem C7_filename_search_and_counterexample :
    DirSearch.search_files_and
        (DirSearch.build_search_index [(("readme.txt").data, ("readme.txt").data)])
        [("readme.txt").data, ("zzz").data] [] [] 10 = [("readme.txt").data] ∧
    ("zzz").data ≠ ("readme.txt").data ∧ ("zzz").data ≠ ("readme").data ∧ ("zzz").data ≠ (".txt").data ∧
    isSub (("zzz").data) (("readme.txt").data) = false := by
  refine ⟨by decide, by decide, by decide, by decide, by decide⟩
